import Mathlib

/-!
Verification of `stronglyRegularGraphs.py`.

The program's single function `find_srg (n, k, lmd, mu)` builds a 0/1 integer
program over edge variables `x[(u,v)]` (one per unordered pair, keys always
sorted) and helper variables `y[(w,u,v)]`, posts

  * degree constraints: for every vertex `v`, the sum of incident edge
    variables equals `k` (line 31);
  * linking constraints forcing `y[w,u,v] = x[w,u] AND x[w,v]` for distinct
    `w, u, v` (lines 38-45);
  * big-M codegree constraints with `BigM = n`: for every pair `u < v`, the
    sum of `y[w,u,v]` over `w` distinct from `u, v` equals `lmd` when
    `x[u,v] = 1` and `mu` when `x[u,v] = 0` (lines 48-65);

then calls an external MILP solver (line 69), and post-processes the solver's
answer: if the status is not 2 (OPTIMAL) it prints "Model has no solution" and
returns None (lines 73-75); otherwise it extracts the edge list `E` (line 78),
independently re-checks the strongly-regular conditions from the solution
values (lines 81-96), prints the verdict, the edge list and the adjacency
matrix (lines 99-101), and falls off the end, returning None.

The solver call is external to the repository; it is modelled by a
`SolverOutcome` parameter carrying the reported status code and the rounded
(`.X > 0.5`) values of the `x` and `y` variables.  Machine integers are
modelled by `Int`/`Nat`; the binary variables by `Bool`.
-/

namespace SRG

/-- Integer value of a binary (0/1) variable. -/
def bint (b : Bool) : ℤ := if b then 1 else 0

/-- Reading the edge variable for `{u, v}`: the Python code always keys the
`x` dictionary by the sorted pair, `x[tuple(sorted([u, v]))]`. -/
def xval (x : ℕ → ℕ → Bool) (u v : ℕ) : Bool := x (min u v) (max u v)

/-- The pair keys `itertools.combinations(range n, 2)`: all `(u, v)` with
`u < v < n`, in lexicographic order. -/
def pairs (n : ℕ) : List (ℕ × ℕ) :=
  (List.range n).flatMap fun u =>
    ((List.range n).filter fun v => decide (u < v)).map fun v => (u, v)

/-- Left-hand side of the degree constraint for vertex `v` (line 31-34):
`quicksum(x[tuple(sorted([v, u]))] for u in range(n) if u != v)`. -/
def degreeSum (n : ℕ) (x : ℕ → ℕ → Bool) (v : ℕ) : ℤ :=
  (((List.range n).filter fun u => u != v).map fun u => bint (xval x v u)).sum

/-- Codegree sum appearing in lines 48-65:
`quicksum(y[w, u, v] for w in range(n) if w != u and w != v)`. -/
def ySum (n : ℕ) (y : ℕ → ℕ → ℕ → Bool) (u v : ℕ) : ℤ :=
  (((List.range n).filter fun w => w != u && w != v).map fun w => bint (y w u v)).sum

/-- The triples `itertools.product(range n, range n, range n)` restricted by
the comprehension guard `w != u and w != v and u != v` of lines 38-45. -/
def triples (n : ℕ) : List (ℕ × ℕ × ℕ) :=
  ((List.range n).flatMap fun w =>
    (List.range n).flatMap fun u =>
      (List.range n).map fun v => (w, u, v)).filter
    fun t => t.1 != t.2.1 && t.1 != t.2.2 && t.2.1 != t.2.2

/-- Degree constraints (lines 31-34): every vertex of `range n` has degree
exactly `k`. -/
def degreeOK (n : ℕ) (k : ℤ) (x : ℕ → ℕ → Bool) : Prop :=
  ∀ v ∈ List.range n, degreeSum n x v = k

/-- The pair of linking constraints posted for one triple `(w, u, v)`
(lines 38-45): `-1 + x[w,u] + x[w,v] <= 2*y[w,u,v]` and
`2*y[w,u,v] <= x[w,u] + x[w,v]`. -/
def linkCon (x : ℕ → ℕ → Bool) (y : ℕ → ℕ → ℕ → Bool) (w u v : ℕ) : Prop :=
  -1 + bint (xval x w u) + bint (xval x w v) ≤ 2 * bint (y w u v) ∧
  2 * bint (y w u v) ≤ bint (xval x w u) + bint (xval x w v)

/-- Linking constraints (lines 38-45), posted for every triple of pairwise
distinct `w, u, v` in `range n`. -/
def yLink (n : ℕ) (x : ℕ → ℕ → Bool) (y : ℕ → ℕ → ℕ → Bool) : Prop :=
  ∀ t ∈ triples n, linkCon x y t.1 t.2.1 t.2.2

/-- Lambda codegree constraints (lines 48-55) with `BigM = n` (line 16): for
every pair `(u, v)` of `combinations(range n, 2)`,
`ySum <= lmd + (1 - x[u,v])*BigM` and `ySum >= lmd - (1 - x[u,v])*BigM`. -/
def lmdOK (n : ℕ) (lmd : ℤ) (x : ℕ → ℕ → Bool) (y : ℕ → ℕ → ℕ → Bool) : Prop :=
  ∀ p ∈ pairs n,
    ySum n y p.1 p.2 ≤ lmd + (1 - bint (x p.1 p.2)) * (n : ℤ) ∧
    lmd - (1 - bint (x p.1 p.2)) * (n : ℤ) ≤ ySum n y p.1 p.2

/-- Mu codegree constraints (lines 58-65) with `BigM = n`: for every pair
`(u, v)` of `combinations(range n, 2)`,
`ySum <= mu + x[u,v]*BigM` and `ySum >= mu - x[u,v]*BigM`. -/
def muOK (n : ℕ) (mu : ℤ) (x : ℕ → ℕ → Bool) (y : ℕ → ℕ → ℕ → Bool) : Prop :=
  ∀ p ∈ pairs n,
    ySum n y p.1 p.2 ≤ mu + bint (x p.1 p.2) * (n : ℤ) ∧
    mu - bint (x p.1 p.2) * (n : ℤ) ≤ ySum n y p.1 p.2

/-- A 0/1 assignment to the `x` and `y` variables satisfies the whole
constraint model built by `find_srg` (lines 15-65). -/
def modelFeasible (n : ℕ) (k lmd mu : ℤ) (x : ℕ → ℕ → Bool)
    (y : ℕ → ℕ → ℕ → Bool) : Prop :=
  degreeOK n k x ∧ yLink n x y ∧ lmdOK n lmd x y ∧ muOK n mu x y

/-- Number of common neighbours of `u` and `v` recomputed by the verification
pass (line 96): `len([w for w in range(n) if w != u and w != v and
x[sorted(w,u)].X > 0.5 and x[sorted(w,v)].X > 0.5])`. -/
def commonCount (n : ℕ) (x : ℕ → ℕ → Bool) (u v : ℕ) : ℕ :=
  ((List.range n).filter fun w =>
    (w != u && w != v) && (xval x w u && xval x w v)).length

/-- Degree of `v` in the graph built from the chosen edges (line 87,
`G.degree(v)`): the number of `u != v` whose pair variable is set. -/
def degreeCount (n : ℕ) (x : ℕ → ℕ → Bool) (v : ℕ) : ℕ :=
  ((List.range n).filter fun u => u != v && xval x v u).length

/-- Edge extraction (line 78):
`E = [e for e in itertools.combinations(range(n), 2) if x[e].X > 0.5]`. -/
def extractEdges (n : ℕ) (x : ℕ → ℕ → Bool) : List (ℕ × ℕ) :=
  (pairs n).filter fun p => x p.1 p.2

/-- The verification pass (lines 81-96): `correct` starts `True`, is and-ed
with `G.degree(v) == k` for every vertex and, for every pair `u < v`, with
`cmp == commonCount` where `cmp` is `lmd` if the pair variable is set and
`mu` otherwise. -/
def verify (n : ℕ) (k lmd mu : ℤ) (x : ℕ → ℕ → Bool) : Bool :=
  ((List.range n).all fun v => (degreeCount n x v : ℤ) == k) &&
  ((pairs n).all fun p =>
    (if x p.1 p.2 then lmd else mu) == (commonCount n x p.1 p.2 : ℤ))

/-- The strongly-regular-graph property of an edge assignment, as the claims
state it: every vertex of `[0, n)` has degree exactly `k`, every edge-joined
pair of distinct vertices has exactly `lmd` common neighbours, and every
non-joined pair of distinct vertices has exactly `mu` common neighbours. -/
def isSRG (n : ℕ) (k lmd mu : ℤ) (x : ℕ → ℕ → Bool) : Prop :=
  (∀ v < n, (degreeCount n x v : ℤ) = k) ∧
  (∀ u < n, ∀ v < n, u ≠ v ∧ xval x u v = true → (commonCount n x u v : ℤ) = lmd) ∧
  (∀ u < n, ∀ v < n, u ≠ v ∧ xval x u v = false → (commonCount n x u v : ℤ) = mu)

/-- Edge assignment induced by an edge list, as a graph built with
`G.add_edges_from(E)` reads it (membership of the pair). -/
def ofEdges (E : List (ℕ × ℕ)) : ℕ → ℕ → Bool :=
  fun u v => decide ((u, v) ∈ E)

/-- Row `i` of the printed adjacency matrix (line 101). -/
def adjRow (n : ℕ) (x : ℕ → ℕ → Bool) (i : ℕ) : List ℕ :=
  (List.range n).map fun j => if i != j && xval x i j then 1 else 0

/-- The printed adjacency matrix `nx.to_numpy_matrix(G)` (line 101). -/
def adjMatrix (n : ℕ) (x : ℕ → ℕ → Bool) : List (List ℕ) :=
  (List.range n).map (adjRow n x)

/-- One line of standard output produced by `find_srg`.  The wall-clock time
interpolated into the "Finished optimizing" message (line 70) is not
modelled. -/
inductive Line where
  | startOptimizing : Line
  | finishedOptimizing : Line
  | noSolution : Line
  | found : Bool → List (ℕ × ℕ) → Line
  | adjacencyMatrix : List (List ℕ) → Line
deriving DecidableEq

/-- What the external MILP solver call (line 69) hands back to the Python
code: the reported status code (`m.getAttr("Status")`; 2 is OPTIMAL, 3 is
INFEASIBLE, 9 is TIME_LIMIT) and the rounded (`.X > 0.5`) values of the
variables. -/
structure SolverOutcome where
  status : ℤ
  x : ℕ → ℕ → Bool
  y : ℕ → ℕ → ℕ → Bool

/-- Observable behaviour of one `find_srg` call: whether the solver was
invoked, the lines printed, and the Python return value. -/
structure RunResult where
  invokedSolver : Bool
  printed : List Line
  ret : Option (List (ℕ × ℕ))
deriving DecidableEq

/-- The `find_srg` function (lines 7-101) after the model build: the solver
is invoked unconditionally (line 69); if the reported status is not 2 the
function prints "Model has no solution" and returns None (lines 73-75);
otherwise it extracts the edge list, runs the verification pass, prints the
verdict line and the adjacency matrix, and returns None (lines 78-101). -/
def find_srg (n : ℕ) (k lmd mu : ℤ) (s : SolverOutcome) : RunResult :=
  if s.status ≠ 2 then
    { invokedSolver := true
      printed := [Line.startOptimizing, Line.finishedOptimizing, Line.noSolution]
      ret := none }
  else
    { invokedSolver := true
      printed := [Line.startOptimizing, Line.finishedOptimizing,
        Line.found (verify n k lmd mu s.x) (extractEdges n s.x),
        Line.adjacencyMatrix (adjMatrix n s.x)]
      ret := none }

/-- The classical eigenvalue-multiplicity identity the specification asks to
pre-check: `k*(k-1-lmd) == (n-k-1)*mu`. -/
def eigenIdentity (n : ℕ) (k lmd mu : ℤ) : Prop :=
  k * (k - 1 - lmd) = ((n : ℤ) - k - 1) * mu

/-- The canonical helper assignment: each `y` variable is the conjunction of
its two edge variables. -/
def yOf (x : ℕ → ℕ → Bool) : ℕ → ℕ → ℕ → Bool :=
  fun w u v => xval x w u && xval x w v

/-- All-true edge assignment: on three vertices, the triangle. -/
def xTriangle : ℕ → ℕ → Bool := fun _ _ => true

/-- Solver outcome reporting OPTIMAL with the triangle solution. -/
def sTriangle : SolverOutcome :=
  { status := 2, x := xTriangle, y := fun _ _ _ => true }

/-- Single-edge assignment: on two vertices, the graph with the one edge
(0, 1). -/
def xK2 : ℕ → ℕ → Bool := fun u v => u == 0 && v == 1

/-- Solver outcome reporting OPTIMAL with the single-edge solution. -/
def sK2 : SolverOutcome := { status := 2, x := xK2, y := yOf xK2 }

/-- Path edge assignment 0 - 1 - 2 on three vertices. -/
def xPath : ℕ → ℕ → Bool := fun u v => (u == 0 && v == 1) || (u == 1 && v == 2)

/-- Canonical helper values over the path assignment. -/
def yPath : ℕ → ℕ → ℕ → Bool := yOf xPath

/-- Solver outcome reporting INFEASIBLE (status 3). -/
def sNoSol : SolverOutcome :=
  { status := 3, x := fun _ _ => false, y := fun _ _ _ => false }

/-- Solver outcome reporting TIME_LIMIT (status 9), i.e. an exhausted
budget. -/
def sTimeLimit : SolverOutcome :=
  { status := 9, x := fun _ _ => false, y := fun _ _ _ => false }

/-- Solver outcome claiming OPTIMAL while handing back the empty graph: a
point that fails verification for the parameters (2, 1, 0, 0). -/
def sBadClaim : SolverOutcome :=
  { status := 2, x := fun _ _ => false, y := fun _ _ _ => false }

/-- Optimal outcome with the single-edge solution and all helper values
zero. -/
def sDetA : SolverOutcome :=
  { status := 2, x := fun u v => u == 0 && v == 1, y := fun _ _ _ => false }

/-- Optimal outcome agreeing with `sDetA` on every pair of two vertices but
differing in the helper values and in edge values out of range. -/
def sDetB : SolverOutcome :=
  { status := 2, x := fun u v => (u == 0 && v == 1) || (u == 9), y := fun _ _ _ => true }

instance (n : ℕ) (k : ℤ) (x : ℕ → ℕ → Bool) : Decidable (degreeOK n k x) := by
  unfold degreeOK
  infer_instance

instance (n : ℕ) (x : ℕ → ℕ → Bool) (y : ℕ → ℕ → ℕ → Bool) :
    Decidable (yLink n x y) := by
  unfold yLink linkCon
  infer_instance

instance (n : ℕ) (lmd : ℤ) (x : ℕ → ℕ → Bool) (y : ℕ → ℕ → ℕ → Bool) :
    Decidable (lmdOK n lmd x y) := by
  unfold lmdOK
  infer_instance

instance (n : ℕ) (mu : ℤ) (x : ℕ → ℕ → Bool) (y : ℕ → ℕ → ℕ → Bool) :
    Decidable (muOK n mu x y) := by
  unfold muOK
  infer_instance

instance (n : ℕ) (k lmd mu : ℤ) (x : ℕ → ℕ → Bool) (y : ℕ → ℕ → ℕ → Bool) :
    Decidable (modelFeasible n k lmd mu x y) := by
  unfold modelFeasible
  infer_instance

instance (n : ℕ) (k lmd mu : ℤ) (x : ℕ → ℕ → Bool) :
    Decidable (isSRG n k lmd mu x) := by
  unfold isSRG
  infer_instance

instance (n : ℕ) (k lmd mu : ℤ) : Decidable (eigenIdentity n k lmd mu) := by
  unfold eigenIdentity
  infer_instance

/-- Membership in the pair list: exactly the sorted in-range pairs. -/
theorem mem_pairs {n u v : ℕ} : (u, v) ∈ pairs n ↔ u < v ∧ v < n := by
  simp only [pairs, List.mem_flatMap, List.mem_map, List.mem_filter,
    List.mem_range, decide_eq_true_eq, Prod.mk.injEq]
  constructor
  · rintro ⟨a, _, b, ⟨hbn, hab⟩, rfl, rfl⟩
    exact ⟨hab, hbn⟩
  · rintro ⟨huv, hvn⟩
    exact ⟨u, lt_trans huv hvn, v, ⟨hvn, huv⟩, rfl, rfl⟩

/-- Membership in the triple list: pairwise-distinct in-range triples. -/
theorem mem_triples {n w u v : ℕ} :
    (w, u, v) ∈ triples n ↔ (w < n ∧ u < n ∧ v < n) ∧ w ≠ u ∧ w ≠ v ∧ u ≠ v := by
  simp only [triples, List.mem_filter, List.mem_flatMap, List.mem_map,
    List.mem_range, Prod.mk.injEq, Bool.and_eq_true, bne_iff_ne]
  constructor
  · rintro ⟨⟨a, ha, b, hb, c, hc, rfl, rfl, rfl⟩, ⟨h1, h2⟩, h3⟩
    exact ⟨⟨ha, hb, hc⟩, h1, h2, h3⟩
  · rintro ⟨⟨hw, hu, hv⟩, h1, h2, h3⟩
    exact ⟨⟨w, hw, u, hu, v, hv, rfl, rfl, rfl⟩, ⟨h1, h2⟩, h3⟩

/-- Reading the sorted pair key is symmetric in its arguments. -/
theorem xval_symm (x : ℕ → ℕ → Bool) (u v : ℕ) : xval x u v = xval x v u := by
  unfold xval
  rw [Nat.min_comm, Nat.max_comm]

/-- On an already-sorted pair the key is read directly. -/
theorem xval_of_lt (x : ℕ → ℕ → Bool) {u v : ℕ} (h : u < v) : xval x u v = x u v := by
  unfold xval
  rw [Nat.min_eq_left (Nat.le_of_lt h), Nat.max_eq_right (Nat.le_of_lt h)]

/-- Value of the indicator on `true`. -/
theorem bint_true : bint true = 1 := rfl

/-- Value of the indicator on `false`. -/
theorem bint_false : bint false = 0 := rfl

/-- A sum of 0/1 indicator values over a filtered list is the length of the
doubly filtered list. -/
theorem sum_bint_filter (p q : ℕ → Bool) (l : List ℕ) :
    (((l.filter p).map fun w => bint (q w)).sum) =
      ((l.filter fun w => p w && q w).length : ℤ) := by
  induction l with
  | nil => rfl
  | cons a t ih =>
    cases hp : p a <;> cases hq : q a <;>
      simp [List.filter_cons, hp, hq, bint_true, bint_false, ih] <;> omega

/-- The linking constraints pin each helper variable to the conjunction of
its two edge variables. -/
theorem yLink_forces {n : ℕ} {x : ℕ → ℕ → Bool} {y : ℕ → ℕ → ℕ → Bool}
    (h : yLink n x y) {w u v : ℕ} (hw : w < n) (hu : u < n) (hv : v < n)
    (hwu : w ≠ u) (hwv : w ≠ v) (huv : u ≠ v) :
    y w u v = (xval x w u && xval x w v) := by
  have hc := h (w, u, v) (mem_triples.mpr ⟨⟨hw, hu, hv⟩, hwu, hwv, huv⟩)
  unfold linkCon at hc
  dsimp only at hc
  cases h1 : xval x w u <;> cases h2 : xval x w v <;> cases h3 : y w u v <;>
    rw [h1, h2, h3] at hc <;> simp [bint_true, bint_false] at hc ⊢

/-- Under the linking constraints the codegree sum of the model equals the
common-neighbour count recomputed by the verification pass. -/
theorem ySum_eq_commonCount {n : ℕ} {x : ℕ → ℕ → Bool} {y : ℕ → ℕ → ℕ → Bool}
    (h : yLink n x y) {u v : ℕ} (hu : u < n) (hv : v < n) (huv : u ≠ v) :
    ySum n y u v = (commonCount n x u v : ℤ) := by
  unfold ySum commonCount
  have hmap : ((List.range n).filter fun w => w != u && w != v).map
      (fun w => bint (y w u v)) =
      ((List.range n).filter fun w => w != u && w != v).map
      (fun w => bint (xval x w u && xval x w v)) := by
    refine List.map_congr_left fun w hw => ?_
    obtain ⟨hwr, hwp⟩ := List.mem_filter.mp hw
    rw [List.mem_range] at hwr
    rw [Bool.and_eq_true, bne_iff_ne, bne_iff_ne] at hwp
    rw [yLink_forces h hwr hu hv hwp.1 hwp.2 huv]
  rw [hmap, sum_bint_filter]

/-- The degree constraint's left-hand side equals the degree the verification
pass recomputes. -/
theorem degreeSum_eq_degreeCount (n : ℕ) (x : ℕ → ℕ → Bool) (v : ℕ) :
    degreeSum n x v = (degreeCount n x v : ℤ) := by
  unfold degreeSum degreeCount
  rw [sum_bint_filter]

/-- A common-neighbour count never exceeds the number of vertices. -/
theorem commonCount_le (n : ℕ) (x : ℕ → ℕ → Bool) (u v : ℕ) :
    commonCount n x u v ≤ n := by
  unfold commonCount
  calc ((List.range n).filter _).length ≤ (List.range n).length :=
        List.length_filter_le _ _
    _ = n := List.length_range n

/-- The common-neighbour count is symmetric in the two vertices. -/
theorem commonCount_symm (n : ℕ) (x : ℕ → ℕ → Bool) (u v : ℕ) :
    commonCount n x u v = commonCount n x v u := by
  unfold commonCount
  congr 1
  refine List.filter_congr fun w _ => ?_
  cases hwu : w != u <;> cases hwv : w != v <;>
    cases h1 : xval x w u <;> cases h2 : xval x w v <;> simp [hwu, hwv, h1, h2]

/-- A feasible assignment meets the codegree targets on every sorted pair:
`lmd` common neighbours when the edge is chosen, `mu` when it is not. -/
theorem codegree_of_feasible {n : ℕ} {k lmd mu : ℤ} {x : ℕ → ℕ → Bool}
    {y : ℕ → ℕ → ℕ → Bool} (h : modelFeasible n k lmd mu x y)
    {u v : ℕ} (huv : u < v) (hv : v < n) :
    (x u v = true → (commonCount n x u v : ℤ) = lmd) ∧
    (x u v = false → (commonCount n x u v : ℤ) = mu) := by
  obtain ⟨-, hy, hl, hm⟩ := h
  have hu : u < n := lt_trans huv hv
  have hmem : (u, v) ∈ pairs n := mem_pairs.mpr ⟨huv, hv⟩
  have hsum := ySum_eq_commonCount hy hu hv (Nat.ne_of_lt huv)
  have hl' := hl (u, v) hmem
  have hm' := hm (u, v) hmem
  dsimp only at hl' hm'
  rw [hsum] at hl' hm'
  constructor
  · intro hx
    rw [hx, bint_true] at hl'
    omega
  · intro hx
    rw [hx, bint_false] at hm'
    omega

/-- Every feasible assignment of the constraint model chooses a strongly
regular graph. -/
theorem isSRG_of_modelFeasible {n : ℕ} {k lmd mu : ℤ} {x : ℕ → ℕ → Bool}
    {y : ℕ → ℕ → ℕ → Bool} (h : modelFeasible n k lmd mu x y) :
    isSRG n k lmd mu x := by
  refine ⟨?_, ?_, ?_⟩
  · intro v hv
    rw [← degreeSum_eq_degreeCount]
    exact h.1 v (List.mem_range.mpr hv)
  · rintro u hu v hv ⟨huv, hx⟩
    rcases Nat.lt_or_ge u v with hlt | hge
    · rw [xval_of_lt x hlt] at hx
      exact (codegree_of_feasible h hlt hv).1 hx
    · have hvu : v < u := lt_of_le_of_ne hge (Ne.symm huv)
      rw [xval_symm, xval_of_lt x hvu] at hx
      rw [commonCount_symm]
      exact (codegree_of_feasible h hvu hu).1 hx
  · rintro u hu v hv ⟨huv, hx⟩
    rcases Nat.lt_or_ge u v with hlt | hge
    · rw [xval_of_lt x hlt] at hx
      exact (codegree_of_feasible h hlt hv).2 hx
    · have hvu : v < u := lt_of_le_of_ne hge (Ne.symm huv)
      rw [xval_symm, xval_of_lt x hvu] at hx
      rw [commonCount_symm]
      exact (codegree_of_feasible h hvu hu).2 hx

/-- The verification pass accepts every assignment that is strongly
regular. -/
theorem verify_eq_true_of_isSRG {n : ℕ} {k lmd mu : ℤ} {x : ℕ → ℕ → Bool}
    (h : isSRG n k lmd mu x) : verify n k lmd mu x = true := by
  obtain ⟨hd, hl, hm⟩ := h
  unfold verify
  rw [Bool.and_eq_true]
  constructor
  · rw [List.all_eq_true]
    intro v hv
    rw [beq_iff_eq]
    exact hd v (List.mem_range.mp hv)
  · rw [List.all_eq_true]
    intro p hp
    obtain ⟨u, v⟩ := p
    obtain ⟨huv, hvn⟩ := mem_pairs.mp hp
    have hun : u < n := lt_trans huv hvn
    have hne : u ≠ v := Nat.ne_of_lt huv
    cases hx : x u v
    · have hcc := hm u hun v hvn ⟨hne, by rw [xval_of_lt x huv]; exact hx⟩
      simp [hx, beq_iff_eq, hcc]
    · have hcc := hl u hun v hvn ⟨hne, by rw [xval_of_lt x huv]; exact hx⟩
      simp [hx, beq_iff_eq, hcc]

/-- With the canonical helper assignment the codegree sum is the
common-neighbour count outright. -/
theorem ySum_yOf (n : ℕ) (x : ℕ → ℕ → Bool) (u v : ℕ) :
    ySum n (yOf x) u v = (commonCount n x u v : ℤ) := by
  unfold ySum yOf commonCount
  rw [sum_bint_filter]

/-- A strongly regular assignment, completed with the canonical helper
values, satisfies the whole constraint model: with `BigM = n` the codegree
constraints deactivated by their conditioning edge variable are slack. -/
theorem modelFeasible_of_isSRG {n : ℕ} {k lmd mu : ℤ} {x : ℕ → ℕ → Bool}
    (hl0 : 0 ≤ lmd) (hln : lmd ≤ (n : ℤ)) (hm0 : 0 ≤ mu) (hmn : mu ≤ (n : ℤ))
    (h : isSRG n k lmd mu x) : modelFeasible n k lmd mu x (yOf x) := by
  obtain ⟨hd, hlm, hmu⟩ := h
  have hccn : ∀ u v : ℕ, (commonCount n x u v : ℤ) ≤ (n : ℤ) :=
    fun u v => Nat.cast_le.mpr (commonCount_le n x u v)
  have hcc0 : ∀ u v : ℕ, (0 : ℤ) ≤ (commonCount n x u v : ℤ) :=
    fun u v => Int.natCast_nonneg _
  refine ⟨?_, ?_, ?_, ?_⟩
  · intro v hv
    rw [degreeSum_eq_degreeCount]
    exact hd v (List.mem_range.mp hv)
  · intro t ht
    unfold linkCon yOf
    cases h1 : xval x t.1 t.2.1 <;> cases h2 : xval x t.1 t.2.2 <;> decide
  · intro p hp
    obtain ⟨u, v⟩ := p
    obtain ⟨huv, hvn⟩ := mem_pairs.mp hp
    have hun : u < n := lt_trans huv hvn
    have hne : u ≠ v := Nat.ne_of_lt huv
    dsimp only
    rw [ySum_yOf]
    cases hx : x u v
    · rw [bint_false]
      exact ⟨by have := hccn u v; have := hcc0 u v; omega,
             by have := hccn u v; have := hcc0 u v; omega⟩
    · rw [bint_true]
      have hcc := hlm u hun v hvn ⟨hne, by rw [xval_of_lt x huv]; exact hx⟩
      exact ⟨by omega, by omega⟩
  · intro p hp
    obtain ⟨u, v⟩ := p
    obtain ⟨huv, hvn⟩ := mem_pairs.mp hp
    have hun : u < n := lt_trans huv hvn
    have hne : u ≠ v := Nat.ne_of_lt huv
    dsimp only
    rw [ySum_yOf]
    cases hx : x u v
    · rw [bint_false]
      have hcc := hmu u hun v hvn ⟨hne, by rw [xval_of_lt x huv]; exact hx⟩
      exact ⟨by omega, by omega⟩
    · rw [bint_true]
      exact ⟨by have := hccn u v; have := hcc0 u v; omega,
             by have := hccn u v; have := hcc0 u v; omega⟩

/-- Symmetric reads agree on in-range vertices whenever the assignments agree
on sorted in-range pairs. -/
theorem xval_congr {n : ℕ} {x1 x2 : ℕ → ℕ → Bool}
    (h : ∀ u v, u < v → v < n → x1 u v = x2 u v) {u v : ℕ}
    (hu : u < n) (hv : v < n) (huv : u ≠ v) : xval x1 u v = xval x2 u v := by
  unfold xval
  exact h _ _ (min_lt_max.mpr huv) (Nat.max_lt.mpr ⟨hu, hv⟩)

/-- The fold `List.all` only depends on the pointwise values on the list. -/
theorem list_all_congr {α : Type} {f g : α → Bool} (l : List α)
    (h : ∀ a ∈ l, f a = g a) : l.all f = l.all g := by
  induction l with
  | nil => rfl
  | cons a t ih =>
    rw [List.all_cons, List.all_cons, h a (List.mem_cons_self a t),
      ih fun b hb => h b (List.mem_cons_of_mem a hb)]

/-- The recomputed degree of an in-range vertex only depends on the sorted
in-range pair values. -/
theorem degreeCount_congr {n : ℕ} {x1 x2 : ℕ → ℕ → Bool}
    (h : ∀ u v, u < v → v < n → x1 u v = x2 u v) {v : ℕ} (hv : v < n) :
    degreeCount n x1 v = degreeCount n x2 v := by
  unfold degreeCount
  congr 1
  refine List.filter_congr fun u hu => ?_
  rw [List.mem_range] at hu
  by_cases huv : u = v
  · simp [huv]
  · rw [xval_congr h hv hu (fun hc => huv hc.symm)]

/-- The recomputed common-neighbour count of in-range vertices only depends
on the sorted in-range pair values. -/
theorem commonCount_congr {n : ℕ} {x1 x2 : ℕ → ℕ → Bool}
    (h : ∀ u v, u < v → v < n → x1 u v = x2 u v) {u v : ℕ}
    (hu : u < n) (hv : v < n) : commonCount n x1 u v = commonCount n x2 u v := by
  unfold commonCount
  congr 1
  refine List.filter_congr fun w hw => ?_
  rw [List.mem_range] at hw
  by_cases hwu : w = u
  · simp [hwu]
  · by_cases hwv : w = v
    · simp [hwv]
    · rw [xval_congr h hw hu hwu, xval_congr h hw hv hwv]

/-- The extracted edge list only depends on the sorted in-range pair
values. -/
theorem extractEdges_congr {n : ℕ} {x1 x2 : ℕ → ℕ → Bool}
    (h : ∀ u v, u < v → v < n → x1 u v = x2 u v) :
    extractEdges n x1 = extractEdges n x2 := by
  unfold extractEdges
  refine List.filter_congr fun p hp => ?_
  obtain ⟨u, v⟩ := p
  obtain ⟨huv, hvn⟩ := mem_pairs.mp hp
  exact h u v huv hvn

/-- The verification pass only depends on the sorted in-range pair values. -/
theorem verify_congr {n : ℕ} {k lmd mu : ℤ} {x1 x2 : ℕ → ℕ → Bool}
    (h : ∀ u v, u < v → v < n → x1 u v = x2 u v) :
    verify n k lmd mu x1 = verify n k lmd mu x2 := by
  have e1 : ((List.range n).all fun v => (degreeCount n x1 v : ℤ) == k)
      = ((List.range n).all fun v => (degreeCount n x2 v : ℤ) == k) := by
    refine list_all_congr _ fun v hv => ?_
    rw [List.mem_range] at hv
    rw [degreeCount_congr h hv]
  have e2 : ((pairs n).all fun p =>
        (if x1 p.1 p.2 then lmd else mu) == (commonCount n x1 p.1 p.2 : ℤ))
      = ((pairs n).all fun p =>
        (if x2 p.1 p.2 then lmd else mu) == (commonCount n x2 p.1 p.2 : ℤ)) := by
    refine list_all_congr _ fun p hp => ?_
    obtain ⟨u, v⟩ := p
    obtain ⟨huv, hvn⟩ := mem_pairs.mp hp
    have hun : u < n := lt_trans huv hvn
    dsimp only
    rw [h u v huv hvn, commonCount_congr h hun hvn]
  unfold verify
  rw [e1, e2]

/-- The printed adjacency matrix only depends on the sorted in-range pair
values. -/
theorem adjMatrix_congr {n : ℕ} {x1 x2 : ℕ → ℕ → Bool}
    (h : ∀ u v, u < v → v < n → x1 u v = x2 u v) :
    adjMatrix n x1 = adjMatrix n x2 := by
  unfold adjMatrix adjRow
  refine List.map_congr_left fun i hi => ?_
  rw [List.mem_range] at hi
  refine List.map_congr_left fun j hj => ?_
  rw [List.mem_range] at hj
  by_cases hij : i = j
  · simp [hij]
  · rw [xval_congr h hi hj hij]

/-- Rebuilding the assignment from the extracted edge list reproduces the
solution values on sorted in-range pairs. -/
theorem ofEdges_extractEdges {n : ℕ} (x : ℕ → ℕ → Bool) :
    ∀ u v, u < v → v < n → ofEdges (extractEdges n x) u v = x u v := by
  intro u v huv hvn
  unfold ofEdges extractEdges
  cases hx : x u v
  · simp [List.mem_filter, hx]
  · simp [List.mem_filter, mem_pairs, huv, hvn, hx]

/-- Filtered-list length over a range as a filtered `Finset` cardinality. -/
theorem length_filter_eq_card_filter_range (n : ℕ) (p : ℕ → Bool) :
    ((List.range n).filter p).length =
      ((Finset.range n).filter fun w => p w = true).card := by
  induction n with
  | zero => rfl
  | succ m ih =>
    rw [List.range_succ, List.filter_append, List.length_append,
      Finset.range_succ, Finset.filter_insert]
    cases hp : p m
    · simp [List.filter_cons, hp, ih]
    · rw [if_pos rfl, Finset.card_insert_of_not_mem (by simp)]
      simp [List.filter_cons, hp, ih]

/-- C1: whenever the solver reports a found graph (status 2) and the point
it hands back satisfies the constraint model, the chosen edge assignment is
a strongly regular graph with the requested parameters `(n, k, lmd, mu)`,
the printed report carries the verifier verdict `true` together with the
witness edge list, and an independent verifier pass over the assignment
rebuilt from the extracted witness agrees. -/
theorem found_report_is_strongly_regular (n : ℕ) (k lmd mu : ℤ)
    (s : SolverOutcome) (hstat : s.status = 2)
    (hfeas : modelFeasible n k lmd mu s.x s.y) :
    isSRG n k lmd mu s.x ∧
    (find_srg n k lmd mu s).printed =
      [Line.startOptimizing, Line.finishedOptimizing,
        Line.found true (extractEdges n s.x),
        Line.adjacencyMatrix (adjMatrix n s.x)] ∧
    verify n k lmd mu (ofEdges (extractEdges n s.x)) = true := by
  have hsrg := isSRG_of_modelFeasible hfeas
  have hver := verify_eq_true_of_isSRG hsrg
  refine ⟨hsrg, ?_, ?_⟩
  · unfold find_srg
    rw [if_neg (by simp [hstat]), hver]
  · rw [verify_congr (ofEdges_extractEdges s.x)]
    exact hver

/-- Witness for C1 at the triangle instance (3, 2, 1, 0). -/
theorem found_report_is_strongly_regular_witness :
    isSRG 3 2 1 0 sTriangle.x ∧
    (find_srg 3 2 1 0 sTriangle).printed =
      [Line.startOptimizing, Line.finishedOptimizing,
        Line.found true (extractEdges 3 sTriangle.x),
        Line.adjacencyMatrix (adjMatrix 3 sTriangle.x)] ∧
    verify 3 2 1 0 (ofEdges (extractEdges 3 sTriangle.x)) = true :=
  found_report_is_strongly_regular 3 2 1 0 sTriangle rfl (by decide)

/-- C2 counterexample: the call `find_srg 3 5 (-1) (-1)` violates the range
preconditions (`k < n`, `lmd ≥ 0`, `mu ≥ 0`), yet the model is built, the
solver is invoked and the ordinary result is produced — there is no
`InvalidParameters` fail-fast before the search. -/
theorem invalid_parameters_not_rejected :
    ¬ (1 ≤ 3 ∧ 0 ≤ (5 : ℤ) ∧ (5 : ℤ) < 3 ∧ 0 ≤ (-1 : ℤ) ∧ 0 ≤ (-1 : ℤ)) ∧
    (find_srg 3 5 (-1) (-1) sNoSol).invokedSolver = true ∧
    (find_srg 3 5 (-1) (-1) sNoSol).ret = none := by decide

/-- C2 amended: find_srg performs no parameter validation; a call whose
arguments violate the range preconditions still builds the model, invokes
the solver and returns None like any other call. -/
theorem no_parameter_validation (n : ℕ) (k lmd mu : ℤ) (s : SolverOutcome)
    (hbad : ¬ (1 ≤ n ∧ 0 ≤ k ∧ k < (n : ℤ) ∧ 0 ≤ lmd ∧ 0 ≤ mu)) :
    (find_srg n k lmd mu s).invokedSolver = true ∧
    (find_srg n k lmd mu s).ret = none := by
  unfold find_srg
  by_cases h : s.status ≠ 2
  · rw [if_pos h]
    exact ⟨rfl, rfl⟩
  · rw [if_neg h]
    exact ⟨rfl, rfl⟩

/-- Witness for the amended C2 at the invalid call (0, 0, -2, 0). -/
theorem no_parameter_validation_witness :
    (find_srg 0 0 (-2) 0 sNoSol).invokedSolver = true ∧
    (find_srg 0 0 (-2) 0 sNoSol).ret = none :=
  no_parameter_validation 0 0 (-2) 0 sNoSol (by decide)

/-- C3 counterexample: the tuple (5, 3, 2, 3) fails the eigenvalue identity
(`3*(3-1-2) = 0` but `(5-3-1)*3 = 3`), yet find_srg still invokes the
solver — the search is not short-circuited to Infeasible with zero search
nodes. -/
theorem identity_failure_still_invokes_solver :
    ¬ eigenIdentity 5 3 2 3 ∧
    (find_srg 5 3 2 3 sNoSol).invokedSolver = true := by decide

/-- C3 amended: find_srg has no eigenvalue-identity pre-check: even for
parameters failing the identity it invokes the solver, and infeasibility is
only ever reported through the solver's non-optimal status printing "Model
has no solution". -/
theorem no_eigenvalue_precheck (n : ℕ) (k lmd mu : ℤ) (s : SolverOutcome)
    (hid : ¬ eigenIdentity n k lmd mu) :
    (find_srg n k lmd mu s).invokedSolver = true ∧
    (s.status ≠ 2 → (find_srg n k lmd mu s).printed =
      [Line.startOptimizing, Line.finishedOptimizing, Line.noSolution]) := by
  unfold find_srg
  by_cases h : s.status ≠ 2
  · rw [if_pos h]
    exact ⟨rfl, fun _ => rfl⟩
  · rw [if_neg h]
    exact ⟨rfl, fun hc => absurd hc h⟩

/-- Witness for the amended C3 at (5, 3, 2, 3) with an INFEASIBLE status. -/
theorem no_eigenvalue_precheck_witness :
    (find_srg 5 3 2 3 sNoSol).invokedSolver = true ∧
    (find_srg 5 3 2 3 sNoSol).printed =
      [Line.startOptimizing, Line.finishedOptimizing, Line.noSolution] :=
  ⟨(no_eigenvalue_precheck 5 3 2 3 sNoSol (by decide)).1,
   (no_eigenvalue_precheck 5 3 2 3 sNoSol (by decide)).2 (by decide)⟩

/-- C4 counterexample: a budget-exhausted run (status 9, TIME_LIMIT) and a
proven-infeasible run (status 3, INFEASIBLE) of `find_srg 10 3 0 1` produce
identical results — the same "Model has no solution" print and the return
value None — so no Found/Infeasible/Unknown value reaches the caller and
Unknown is not kept distinct from Infeasible. -/
theorem budget_vs_infeasible_conflated :
    find_srg 10 3 0 1 sTimeLimit = find_srg 10 3 0 1 sNoSol ∧
    (find_srg 10 3 0 1 sTimeLimit).ret = none := by decide

/-- C4 amended: find_srg returns None to the caller in every case — on the
found-graph (status 2) path just as on every other — so no
Found/Infeasible/Unknown value ever reaches the caller; outcomes are
communicated only through the printed output, and every non-optimal
status — infeasibility and an exhausted budget alike — produces the same
"Model has no solution" report. -/
theorem outcomes_only_printed (n : ℕ) (k lmd mu : ℤ) (s t : SolverOutcome) :
    (find_srg n k lmd mu s).ret = none ∧
    (s.status ≠ 2 → t.status ≠ 2 →
      find_srg n k lmd mu s = find_srg n k lmd mu t) := by
  constructor
  · unfold find_srg
    by_cases h : s.status ≠ 2
    · rw [if_pos h]
    · rw [if_neg h]
  · intro hs ht
    unfold find_srg
    rw [if_pos hs, if_pos ht]

/-- Witness for the amended C4: the return value is None even on a
found-graph (status 2) outcome, and time limit versus infeasible yield
identical results at (6, 3, 0, 2). -/
theorem outcomes_only_printed_witness :
    (find_srg 6 3 0 2 sDetA).ret = none ∧
    find_srg 6 3 0 2 sTimeLimit = find_srg 6 3 0 2 sNoSol :=
  ⟨(outcomes_only_printed 6 3 0 2 sDetA sNoSol).1,
   (outcomes_only_printed 6 3 0 2 sTimeLimit sNoSol).2 (by decide) (by decide)⟩

/-- C5 counterexample: a status-2 outcome whose point fails the verifier
(the empty graph claimed optimal for (2, 1, 0, 0)) is reported through the
ordinary output path — a "Found False" line with the adjacency matrix, and
the return value None — with no fatal defect signal of any kind. -/
theorem verifier_mismatch_no_defect_signal :
    verify 2 1 0 0 sBadClaim.x = false ∧
    find_srg 2 1 0 0 sBadClaim =
      { invokedSolver := true
        printed := [Line.startOptimizing, Line.finishedOptimizing,
          Line.found false [], Line.adjacencyMatrix [[0, 0], [0, 0]]]
        ret := none } := by decide

/-- C5 amended: when the verifier disagrees with a claimed (status 2)
solution, find_srg records the mismatch only as the verdict `False` inside
the ordinary "Found" line and still returns None; no distinct fatal
defect outcome exists. -/
theorem verifier_mismatch_reported_ordinarily (n : ℕ) (k lmd mu : ℤ)
    (s : SolverOutcome) (hstat : s.status = 2)
    (hbad : verify n k lmd mu s.x = false) :
    (find_srg n k lmd mu s).printed =
      [Line.startOptimizing, Line.finishedOptimizing,
        Line.found false (extractEdges n s.x),
        Line.adjacencyMatrix (adjMatrix n s.x)] ∧
    (find_srg n k lmd mu s).ret = none := by
  unfold find_srg
  rw [if_neg (by simp [hstat]), hbad]
  exact ⟨rfl, rfl⟩

/-- Witness for the amended C5 at the failing claimed solution. -/
theorem verifier_mismatch_reported_ordinarily_witness :
    (find_srg 2 1 0 0 sBadClaim).printed =
      [Line.startOptimizing, Line.finishedOptimizing,
        Line.found false (extractEdges 2 sBadClaim.x),
        Line.adjacencyMatrix (adjMatrix 2 sBadClaim.x)] ∧
    (find_srg 2 1 0 0 sBadClaim).ret = none :=
  verifier_mismatch_reported_ordinarily 2 1 0 0 sBadClaim rfl (by decide)

/-- C6: the result of find_srg is a deterministic function of the
parameters, the reported status and the solver's returned edge values on
the in-range pairs: two runs whose solver responses agree there produce
identical results, including the identical witness edge list. -/
theorem find_srg_deterministic (n : ℕ) (k lmd mu : ℤ) (s t : SolverOutcome)
    (h1 : s.status = t.status)
    (h2 : ∀ u v, u < v → v < n → s.x u v = t.x u v) :
    find_srg n k lmd mu s = find_srg n k lmd mu t := by
  unfold find_srg
  rw [h1, extractEdges_congr h2, verify_congr h2, adjMatrix_congr h2]

/-- Witness for C6: two optimal outcomes with the same in-range edge values
but different helper values and different out-of-range edge values. -/
theorem find_srg_deterministic_witness :
    find_srg 2 1 0 0 sDetA = find_srg 2 1 0 0 sDetB :=
  find_srg_deterministic 2 1 0 0 sDetA sDetB rfl (by
    intro u v huv hv
    have hv1 : v = 1 := by omega
    have hu0 : u = 0 := by omega
    subst hv1
    subst hu0
    decide)

/-- C7: under the model's linking constraints, the count encoded by the `y`
helper variables and the count recomputed by the verification pass agree,
and both equal the number of vertices `w` distinct from `u` and `v` joined
to both. -/
theorem common_neighbor_count_agrees (n : ℕ) (x : ℕ → ℕ → Bool)
    (y : ℕ → ℕ → ℕ → Bool) (u v : ℕ) (h : yLink n x y)
    (hu : u < n) (hv : v < n) (huv : u ≠ v) :
    ySum n y u v = (commonCount n x u v : ℤ) ∧
    commonCount n x u v =
      ((Finset.range n).filter fun w =>
        w ≠ u ∧ w ≠ v ∧ xval x w u = true ∧ xval x w v = true).card := by
  refine ⟨ySum_eq_commonCount h hu hv huv, ?_⟩
  unfold commonCount
  rw [length_filter_eq_card_filter_range]
  have hfe : ((Finset.range n).filter fun w =>
      ((w != u && w != v) && (xval x w u && xval x w v)) = true) =
      ((Finset.range n).filter fun w =>
        w ≠ u ∧ w ≠ v ∧ xval x w u = true ∧ xval x w v = true) := by
    refine Finset.filter_congr fun w _ => ?_
    simp [Bool.and_eq_true, bne_iff_ne, and_assoc]
  rw [hfe]

/-- Witness for C7 on the path 0 - 1 - 2: vertices 0 and 2 have the single
common neighbour 1. -/
theorem common_neighbor_count_agrees_witness :
    ySum 3 yPath 0 2 = (commonCount 3 xPath 0 2 : ℤ) ∧
    commonCount 3 xPath 0 2 =
      ((Finset.range 3).filter fun w =>
        w ≠ 0 ∧ w ≠ 2 ∧ xval xPath w 0 = true ∧ xval xPath w 2 = true).card :=
  common_neighbor_count_agrees 3 xPath yPath 0 2 (by decide) (by decide)
    (by decide) (by decide)

/-- C8: the verification pass is a pure function of the witness edge set:
run again on the assignment rebuilt from the extracted witness edge list it
returns exactly the same pass result as the first run. -/
theorem verifier_pure_on_witness (n : ℕ) (k lmd mu : ℤ) (x : ℕ → ℕ → Bool) :
    verify n k lmd mu (ofEdges (extractEdges n x)) = verify n k lmd mu x :=
  verify_congr (ofEdges_extractEdges x)

/-- C9: for `n ≥ 2` and `0 ≤ lmd ≤ n`, `0 ≤ mu ≤ n`, a 0/1 assignment of
the edge variables extends to a feasible assignment of the constraint model
iff the graph it chooses is strongly regular with parameters
`(n, k, lmd, mu)`; in particular `BigM = n` provides enough slack on every
deactivated codegree constraint. -/
theorem model_extension_iff_srg (n : ℕ) (k lmd mu : ℤ) (x : ℕ → ℕ → Bool)
    (hn : 2 ≤ n) (hl0 : 0 ≤ lmd) (hln : lmd ≤ (n : ℤ))
    (hm0 : 0 ≤ mu) (hmn : mu ≤ (n : ℤ)) :
    (∃ y, modelFeasible n k lmd mu x y) ↔ isSRG n k lmd mu x := by
  constructor
  · rintro ⟨y, hy⟩
    exact isSRG_of_modelFeasible hy
  · intro h
    exact ⟨yOf x, modelFeasible_of_isSRG hl0 hln hm0 hmn h⟩

/-- Witness for C9: the single-edge assignment on two vertices is strongly
regular for (2, 1, 0, 0), so it extends to a feasible model assignment. -/
theorem model_extension_iff_srg_witness :
    ∃ y, modelFeasible 2 1 0 0 xK2 y :=
  (model_extension_iff_srg 2 1 0 0 xK2 (by norm_num) (by norm_num)
    (by norm_num) (by norm_num) (by norm_num)).mpr (by decide)

/-- C10: find_srg returns None on every path: the witness edge list, the
verdict and the adjacency matrix appear only in the printed output and are
never returned to the caller. -/
theorem find_srg_returns_none (n : ℕ) (k lmd mu : ℤ) (s : SolverOutcome) :
    (find_srg n k lmd mu s).ret = none ∧
    (s.status = 2 →
      (find_srg n k lmd mu s).printed =
        [Line.startOptimizing, Line.finishedOptimizing,
          Line.found (verify n k lmd mu s.x) (extractEdges n s.x),
          Line.adjacencyMatrix (adjMatrix n s.x)]) ∧
    (s.status ≠ 2 →
      (find_srg n k lmd mu s).printed =
        [Line.startOptimizing, Line.finishedOptimizing, Line.noSolution]) := by
  unfold find_srg
  by_cases h : s.status = 2
  · rw [if_neg (by simp [h])]
    exact ⟨rfl, fun _ => rfl, fun hc => absurd h hc⟩
  · rw [if_pos h]
    exact ⟨rfl, fun hc => absurd hc h, fun _ => rfl⟩

/-- Witness for C10 on a found-graph path. -/
theorem find_srg_returns_none_witness :
    (find_srg 2 1 0 0 sK2).ret = none ∧
    (find_srg 2 1 0 0 sK2).printed =
      [Line.startOptimizing, Line.finishedOptimizing,
        Line.found (verify 2 1 0 0 sK2.x) (extractEdges 2 sK2.x),
        Line.adjacencyMatrix (adjMatrix 2 sK2.x)] :=
  ⟨(find_srg_returns_none 2 1 0 0 sK2).1,
   (find_srg_returns_none 2 1 0 0 sK2).2.1 rfl⟩

end SRG
